import Mathlib

/-!
Verification development for the secure-filesystem tool server
(src/index.ts).  The program's core pieces are embedded shallowly:

* the patch engine (`normalizeLineEndings`, `applyFileEdits` with its
  exact-then-fuzzy edit matching, unified-diff rendering and backtick
  fencing),
* the path sandbox (`validatePath` over a small filesystem model with
  symlinks and a fuelled `realpath`),
* the recursive search (`searchFiles` with minimatch-style exclude
  patterns).

Text is modelled as `List Char` (`Str`); machine strings of the source
map to these character lists.  Fallible code returns `Except`.
-/

namespace Mcp

/-- Character list, our model of a JavaScript string. -/
abbrev Str := List Char

/-- Whitespace test matching the JavaScript `\s` class and `trim()`:
ECMAScript WhiteSpace (tab, vertical tab, form feed, space, no-break
space U+00A0, zero-width no-break space U+FEFF, and the Unicode Zs
spaces U+1680, U+2000..U+200A, U+202F, U+205F, U+3000) together with
the LineTerminators (LF, CR, U+2028, U+2029). -/
def isWSChar (c : Char) : Bool :=
  decide (c.toNat = 0x09 ∨ c.toNat = 0x0a ∨ c.toNat = 0x0b ∨ c.toNat = 0x0c
    ∨ c.toNat = 0x0d ∨ c.toNat = 0x20 ∨ c.toNat = 0xa0 ∨ c.toNat = 0x1680
    ∨ (0x2000 ≤ c.toNat ∧ c.toNat ≤ 0x200a) ∨ c.toNat = 0x2028
    ∨ c.toNat = 0x2029 ∨ c.toNat = 0x202f ∨ c.toNat = 0x205f
    ∨ c.toNat = 0x3000 ∨ c.toNat = 0xfeff)

/-- Leading whitespace of a line, as in the source's regular expression
match on caret-backslash-s-star (`match(/^\s*/)`). -/
def leadWS (s : Str) : Str := s.takeWhile isWSChar

/-- JavaScript `trimStart()`. -/
def dropWS (s : Str) : Str := s.dropWhile isWSChar

/-- JavaScript `trim()`: strip leading and trailing whitespace. -/
def trimBoth (s : Str) : Str :=
  ((s.dropWhile isWSChar).reverse.dropWhile isWSChar).reverse

/-- `normalizeLineEndings` of src/index.ts: replace every CRLF pair by a
bare LF (the global regex replace scans left to right). -/
def normalizeLineEndings : Str → Str
  | [] => []
  | [c] => [c]
  | c :: d :: rest =>
    if c = '\r' ∧ d = '\n' then '\n' :: normalizeLineEndings rest
    else c :: normalizeLineEndings (d :: rest)

/-- JavaScript `split("\n")`: always returns at least one (possibly
empty) piece. -/
def splitNl : Str → List Str
  | [] => [[]]
  | '\n' :: rest => [] :: splitNl rest
  | c :: rest =>
    match splitNl rest with
    | [] => [[c]]
    | l :: ls => (c :: l) :: ls

/-- JavaScript `join("\n")`. -/
def joinNl (ls : List Str) : Str := List.intercalate ['\n'] ls

/-- Boolean list-prefix test (executable). -/
def isPref : Str → Str → Bool
  | x :: xs, y :: ys => if x = y then isPref xs ys else false
  | [], _ => true
  | _, [] => false

/-- JavaScript `hay.includes(needle)`: substring containment.  The empty
needle is contained in everything. -/
def containsSub (needle : Str) : Str → Bool
  | [] => isPref needle []
  | c :: rest => isPref needle (c :: rest) || containsSub needle rest

/-- The backtick character (code point 96). -/
def tick : Char := Char.ofNat 96

/-- The apostrophe character (code point 39). -/
def apos : Char := Char.ofNat 39

/-- ECMAScript `GetSubstitution` for a string (captureless) search:
expand the replacement's dollar escapes — dollar-dollar to a dollar,
dollar-ampersand to the matched text, dollar-backtick to the portion of
the subject before the match, dollar-apostrophe to the portion after
it; any other dollar sequence (including `$1`..`$99` and `$<`, which
have no captures to refer to) stays literal.  (A dollar followed by a
non-special character emits both and rescans from the follower, which,
being itself non-special, is emitted verbatim — inlined here for
structural recursion.) -/
def getSubst (matched full : Str) (pos : Nat) : Str → Str
  | [] => []
  | c :: rest =>
    if c = '$' then
      match rest with
      | [] => [c]
      | d :: rest2 =>
        if d = '$' then '$' :: getSubst matched full pos rest2
        else if d = '&' then matched ++ getSubst matched full pos rest2
        else if d = tick then full.take pos ++ getSubst matched full pos rest2
        else if d = apos then
          full.drop (pos + matched.length) ++ getSubst matched full pos rest2
        else '$' :: d :: getSubst matched full pos rest2
    else c :: getSubst matched full pos rest

/-- Worker for `replaceFirst`: scan the remaining suffix of `full`,
keeping the current position for the dollar substitutions. -/
def replFirstGo (old new full : Str) : Nat → Str → Str
  | pos, [] => if isPref old [] then getSubst old full pos new else []
  | pos, c :: rest =>
    if isPref old (c :: rest) then
      getSubst old full pos new ++ (c :: rest).drop old.length
    else c :: replFirstGo old new full (pos + 1) rest

/-- JavaScript `hay.replace(old, new)` with a plain-string pattern:
replace the first (leftmost) occurrence only, expanding the
replacement's dollar escapes; for the empty pattern the substituted
replacement is inserted at the very beginning. -/
def replaceFirst (old new hay : Str) : Str := replFirstGo old new hay 0 hay

/-- One find/replace request of the edit tool. -/
structure Edit where
  oldText : Str
  newText : Str
deriving DecidableEq, Repr

/-- Failure of the patch engine: the `Could not find exact match for
edit` throw of `applyFileEdits`, carrying the unmatched `oldText`. -/
inductive EditErr where
  | editNotFound (oldText : Str)
deriving DecidableEq, Repr

/-- The fuzzy window comparison of `applyFileEdits`: the window of
content lines starting at `i` matches when every `oldText` line equals
the corresponding content line after trimming both.  (The source reads
the window through `slice(i, i + oldLines.length)`; element `j` of that
slice is content line `i + j`.) -/
def isMatchAt (contentLines oldLines : List Str) (i : Nat) : Bool :=
  (List.range oldLines.length).all fun j =>
    decide (trimBoth (oldLines.getD j []) = trimBoth (contentLines.getD (i + j) []))

/-- The source's window loop: indices `0` to
`contentLines.length - oldLines.length` inclusive, first match wins; no
iterations when `oldText` has more lines than the content. -/
def findFuzzy (contentLines oldLines : List Str) : Option Nat :=
  if oldLines.length ≤ contentLines.length then
    (List.range (contentLines.length - oldLines.length + 1)).find?
      (isMatchAt contentLines oldLines)
  else none

/-- The replacement-line construction of the fuzzy branch: the first new
line takes the matched window's first-line indentation plus the new
line stripped of its own leading whitespace; later lines adjust by the
difference of leading-whitespace lengths when both sides have some
(the `Math.max(0, ...)` clamp is natural-number subtraction), and are
kept verbatim otherwise. -/
def computeNewLines (oldLines newSplit : List Str) (originalIndent : Str) : List Str :=
  newSplit.enum.map fun p =>
    if p.1 = 0 then originalIndent ++ dropWS p.2
    else
      let oldIndent := leadWS (oldLines.getD p.1 [])
      let newIndent := leadWS p.2
      if oldIndent ≠ [] ∧ newIndent ≠ [] then
        originalIndent ++ List.replicate (newIndent.length - oldIndent.length) ' ' ++ dropWS p.2
      else p.2

/-- One iteration of the edit loop of `applyFileEdits`: exact substring
replacement first, then the whitespace-flexible line-window match, else
the `editNotFound` failure. -/
def applyEdit (content : Str) (e : Edit) : Except EditErr Str :=
  let old := normalizeLineEndings e.oldText
  let new := normalizeLineEndings e.newText
  if containsSub old content then .ok (replaceFirst old new content)
  else
    let oldLines := splitNl old
    let contentLines := splitNl content
    match findFuzzy contentLines oldLines with
    | some i =>
      let originalIndent := leadWS (contentLines.getD i [])
      let newLines := computeNewLines oldLines (splitNl new) originalIndent
      .ok (joinNl (contentLines.take i ++ newLines ++ contentLines.drop (i + oldLines.length)))
    | none => .error (.editNotFound e.oldText)

/-- Sequential application of the edit list, each edit seeing the
accumulated result of the previous ones; the first failure aborts. -/
def applyEditsFold : Str → List Edit → Except EditErr Str
  | c, [] => .ok c
  | c, e :: rest =>
    match applyEdit c e with
    | .ok c2 => applyEditsFold c2 rest
    | .error err => .error err

/-! ### Unified diff rendering

`applyFileEdits` renders its result with `createUnifiedDiff`, a thin
wrapper around the external jsdiff library's `createTwoFilesPatch`. -/

/-- One line of a line-level diff: kept, deleted or inserted. -/
inductive DiffOp where
  | keep (l : Str)
  | del (l : Str)
  | ins (l : Str)
deriving DecidableEq, Repr

/-- Modelled from the spec: the external diff library's line diff.  A
longest common subsequence of the two line lists; the library's
`diffLines` computes an equivalent alignment. -/
def lcsGo : Nat → List Str → List Str → List Str
  | _, [], _ => []
  | _, _ :: _, [] => []
  | 0, _ :: _, _ :: _ => []
  | fuel + 1, x :: xs, y :: ys =>
    if x = y then x :: lcsGo fuel xs ys
    else
      let a := lcsGo fuel (x :: xs) ys
      let b := lcsGo fuel xs (y :: ys)
      if a.length < b.length then b else a

/-- Longest common subsequence of the two line lists (the fuel, one
step per consumed line, is always sufficient). -/
def lcsL (a b : List Str) : List Str := lcsGo (a.length + b.length) a b

/-- Turn the common subsequence into an op list: lines before the next
common line are deletions (old side) and insertions (new side). -/
def diffOpsGo : List Str → List Str → List Str → List DiffOp
  | a, b, [] => a.map .del ++ b.map .ins
  | a, b, x :: cs =>
    (a.takeWhile (· ≠ x)).map .del ++ (b.takeWhile (· ≠ x)).map .ins
      ++ [.keep x]
      ++ diffOpsGo ((a.dropWhile (· ≠ x)).drop 1) ((b.dropWhile (· ≠ x)).drop 1) cs

/-- Modelled from the spec: line-level diff ops between two line lists. -/
def diffOps (a b : List Str) : List DiffOp := diffOpsGo a b (lcsL a b)

/-- Does the op consume a line of the old file? -/
def opOld : DiffOp → Bool
  | .keep _ => true
  | .del _ => true
  | .ins _ => false

/-- Does the op consume a line of the new file? -/
def opNew : DiffOp → Bool
  | .keep _ => true
  | .del _ => false
  | .ins _ => true

/-- Is the op a change (deletion or insertion)? -/
def opChanged : DiffOp → Bool
  | .keep _ => false
  | _ => true

/-- Index `i` belongs to a hunk when some change lies within the
3-line context distance. -/
def markedIdx (ops : List DiffOp) (i : Nat) : Bool :=
  (List.range ops.length).any fun j =>
    opChanged (ops.getD j (.keep [])) && decide (i ≤ j + 3) && decide (j ≤ i + 3)

/-- Group a boolean flag list into its maximal runs of `true`,
returning (start index, length) pairs; the third argument carries the
run currently being collected, if any. -/
def runsAux : List Bool → Nat → Option (Nat × Nat) → List (Nat × Nat)
  | [], _, none => []
  | [], _, some r => [r]
  | b :: rest, i, none =>
    if b then runsAux rest (i + 1) (some (i, 1)) else runsAux rest (i + 1) none
  | b :: rest, i, some r =>
    if b then runsAux rest (i + 1) (some (r.1, r.2 + 1))
    else r :: runsAux rest (i + 1) none

/-- Modelled from the spec: the hunk ranges of the unified diff — the
maximal index runs lying within 3 context lines of a change.  Equal
inputs produce no change, hence no hunk. -/
def hunkRanges (ops : List DiffOp) : List (Nat × Nat) :=
  runsAux ((List.range ops.length).map (markedIdx ops)) 0 none

/-- Render one diff op as its unified-diff line. -/
def renderOp : DiffOp → Str
  | .keep l => ' ' :: l ++ ['\n']
  | .del l => '-' :: l ++ ['\n']
  | .ins l => '+' :: l ++ ['\n']

/-- Render a hunk header line of the shape
at-at minus a,b plus c,d at-at. -/
def hunkHeader (a b c d : Nat) : Str :=
  ('@' :: '@' :: ' ' :: '-' :: (Nat.repr a).data) ++ (',' :: (Nat.repr b).data)
    ++ (' ' :: '+' :: (Nat.repr c).data) ++ (',' :: (Nat.repr d).data)
    ++ (' ' :: '@' :: '@' :: '\n' :: [])

/-- Render one hunk range: header with 1-based start lines and counts,
then the rendered ops of the range. -/
def renderHunk (ops : List DiffOp) (r : Nat × Nat) : Str :=
  let pre := ops.take r.1
  let slice := (ops.drop r.1).take r.2
  hunkHeader ((pre.filter opOld).length + 1) ((slice.filter opOld).length)
      ((pre.filter opNew).length + 1) ((slice.filter opNew).length)
    ++ (slice.map renderOp).flatten

/-- Modelled from the spec: the external jsdiff `createTwoFilesPatch` —
an `Index:` header, a separator rule, `---`/`+++` lines carrying the
file-identity markers `original` and `modified`, then the 3-line-context
hunks.  Equal inputs yield the header alone. -/
def createTwoFilesPatchM (fp oldStr newStr : Str) : Str :=
  let ops := diffOps (splitNl oldStr) (splitNl newStr)
  (("Index: ").data ++ fp ++ ('\n' :: []))
    ++ (List.replicate 67 ('=')) ++ ('\n' :: [])
    ++ (("--- ").data ++ fp ++ ('\t' :: ("original\n").data))
    ++ (("+++ ").data ++ fp ++ ('\t' :: ("modified\n").data))
    ++ ((hunkRanges ops).map (renderHunk ops)).flatten

/-- `createUnifiedDiff` of src/index.ts: normalize the line endings of
both sides and delegate to `createTwoFilesPatch` with identity markers
`original` and `modified`. -/
def createUnifiedDiff (originalContent newContent fp : Str) : Str :=
  createTwoFilesPatchM fp (normalizeLineEndings originalContent)
    (normalizeLineEndings newContent)

/-- Does `d` contain a run of `n` consecutive backticks?  (JavaScript
`diff.includes("\x60".repeat(n))`.) -/
def hasRun (d : Str) (n : Nat) : Bool := containsSub (List.replicate n tick) d

/-- The backtick-bumping loop of `applyFileEdits`, with enough fuel to
reach its exit (the loop condition fails once `n` exceeds every backtick
run of `d`, and runs are never longer than `d`). -/
def bumpGo (d : Str) : Nat → Nat → Nat
  | 0, n => n
  | fuel + 1, n => if hasRun d n then bumpGo d fuel (n + 1) else n

/-- `numBackticks` as computed in `applyFileEdits`: start at 3, bump
while the diff still contains that long a backtick run. -/
def numBackticksFor (d : Str) : Nat := bumpGo d (d.length + 1) 3

/-- The length of the longest backtick run occurring in `d` (the claim
side's notion, via `Nat.findGreatest`). -/
def maxRun (d : Str) : Nat := Nat.findGreatest (fun n => hasRun d n = true) d.length

/-- The fenced-diff formatting of `applyFileEdits`: the diff body
wrapped between backtick fences, tagged `diff`, with two trailing
newlines. -/
def formatDiff (d : Str) : Str :=
  List.replicate (numBackticksFor d) tick ++ (("diff\n").data) ++ d
    ++ List.replicate (numBackticksFor d) tick ++ (("\n\n").data)

/-- `applyFileEdits` of src/index.ts.  The on-disk file content is
returned as the second component: the (normalized) modified content is
written back unless `dryRun` is set, in which case the file is left
alone.  Any edit failure aborts before the write. -/
def applyFileEdits (fp fileContent : Str) (edits : List Edit) (dryRun : Bool) :
    Except EditErr (Str × Str) :=
  let content := normalizeLineEndings fileContent
  match applyEditsFold content edits with
  | .error e => .error e
  | .ok modified =>
    .ok (formatDiff (createUnifiedDiff content modified fp),
      if dryRun then fileContent else modified)

/-- The file's on-disk content after a call to `applyFileEdits`: changed
only by a successful non-dry run. -/
def fileAfterEdits (fp fileContent : Str) (edits : List Edit) (dryRun : Bool) : Str :=
  match applyFileEdits fp fileContent edits dryRun with
  | .ok pr => pr.2
  | .error _ => fileContent

/-! ### Path sandbox

`validatePath` of src/index.ts over a small filesystem model.  A path
is its list of segments (absolute, already normalized: the source
resolves and `path.normalize`s the request before the checks, and the
resolved form of an absolute input has no dot segments left).  Allow
and prefix checks are performed on the rendered slash-joined strings,
exactly as the source's `startsWith` does. -/

/-- An absolute filesystem path as its segment list. -/
abbrev FsPath := List String

/-- Render a segment path the way the source's normalized strings look:
a leading slash before every segment (the empty path renders as the
root slash). -/
def renderPath (p : FsPath) : Str :=
  p.flatMap fun seg => '/' :: seg.data

/-- A filesystem node: regular file, directory, or symbolic link with
an absolute target. -/
inductive FsNode where
  | file
  | dir
  | symlink (target : FsPath)
deriving DecidableEq, Repr

/-- A filesystem: a finite association of absolute paths to nodes. -/
abbrev Fsys := List (FsPath × FsNode)

/-- Look a path up in the filesystem. -/
def lookupFs (fs : Fsys) (p : FsPath) : Option FsNode :=
  (fs.find? fun pr => pr.1 = p).map fun pr => pr.2

/-- Canonicalization worker: resolve the remaining segments against the
already-canonical prefix `acc`, following symlinks; `fuel` bounds the
symlink-chasing depth (the OS errors out on long chains).  `none` models
any `realpath` failure (missing entry, file used as directory, too many
links). -/
def canonGo (fs : Fsys) : Nat → FsPath → List String → Option FsPath
  | _, acc, [] => some acc
  | 0, _, _ :: _ => none
  | fuel + 1, acc, s :: rest =>
    let cur := acc ++ [s]
    match lookupFs fs cur with
    | none => none
    | some .file => if rest.isEmpty then some cur else none
    | some .dir => canonGo fs fuel cur rest
    | some (.symlink t) =>
      match canonGo fs fuel [] t with
      | none => none
      | some t2 => canonGo fs fuel t2 rest

/-- `fs.realpath`: fully resolve symlinks, failing when the path does
not exist. -/
def realpathModel (fs : Fsys) (fuel : Nat) (p : FsPath) : Option FsPath :=
  canonGo fs fuel [] p

/-- The string-prefix allow-list containment of `validatePath`:
`allowedDirectories.some((dir) => normalized.startsWith(dir))`. -/
def underAllowed (allowed : List FsPath) (p : FsPath) : Bool :=
  allowed.any fun d => isPref (renderPath d) (renderPath p)

/-- The two error outcomes `validatePath` can actually surface:
`accessDenied` is the first check's `Access denied - path outside
allowed directories` throw; `parentMissing` is the `Parent directory
does not exist` throw of the inner catch-all. -/
inductive VErr where
  | accessDenied
  | parentMissing
deriving DecidableEq, Repr

/-- The parent-directory branch of `validatePath` (the outer catch):
canonicalize `path.dirname(absolute)` and re-check it.  Note the
source's inner `catch` has no filter, so the `Access denied - parent
directory outside allowed directories` throw inside the inner `try` is
itself caught and replaced by the `Parent directory does not exist`
error — only `parentMissing` can escape this branch as a failure. -/
def parentCheck (fs : Fsys) (fuel : Nat) (allowed : List FsPath) (absolute : FsPath) :
    Except VErr FsPath :=
  let parent := absolute.dropLast
  match realpathModel fs fuel parent with
  | some realParent =>
    if underAllowed allowed realParent then .ok absolute
    else .error .parentMissing
  | none => .error .parentMissing

/-- `validatePath` of src/index.ts, applied to the already absolute,
normalized request.  The symlink re-check's `Access denied - symlink
target outside allowed directories` throw happens inside the same `try`
whose `catch` runs the parent-directory branch, so a disallowed symlink
target falls through to `parentCheck` instead of failing — a faithful
rendering of the source's control flow. -/
def validatePath (fs : Fsys) (fuel : Nat) (allowed : List FsPath) (absolute : FsPath) :
    Except VErr FsPath :=
  if ¬ underAllowed allowed absolute then .error .accessDenied
  else
    match realpathModel fs fuel absolute with
    | some real =>
      if underAllowed allowed real then .ok real
      else parentCheck fs fuel allowed absolute
    | none => parentCheck fs fuel allowed absolute

/-- The claim side's segment-aware containment: the allow entry must be
a directory-component prefix of the path. -/
def segContained (allowed : List FsPath) (p : FsPath) : Bool :=
  allowed.any fun d => decide (d <+: p)

/-! ### Recursive search

`searchFiles` of src/index.ts over a directory-tree model.  The
per-entry `validatePath` call (whose failure silently skips the entry)
is abstracted as a boolean `valid` predicate on the entry's relative
segment path; exclusion uses a minimatch-style glob matcher on the
path relative to the root, with the `dot: true` option (no special
casing of dot files). -/

/-- A directory entry of the tree being searched. -/
inductive FsEntry where
  | file (name : String)
  | dir (name : String) (children : List FsEntry)

/-- The entry's name as reported by `readdir`. -/
def entryName : FsEntry → String
  | .file n => n
  | .dir n _ => n

/-- Match one glob segment against one path segment: `*` matches any
(possibly empty) run of characters, `?` any single character, anything
else itself.  This is minimatch's matcher restricted to star, question
mark and literal characters; character classes, braces and extglobs are
not modelled, and the claims below only rely on this matcher for fully
literal segments (see `barePat`), where minimatch also compares
literally. -/
def matchSegGo : Nat → List Char → List Char → Bool
  | _, [], s => s.isEmpty
  | 0, _ :: _, _ => false
  | fuel + 1, c :: ps, s =>
    if c = '*' then
      matchSegGo fuel ps s ||
        (match s with
         | [] => false
         | _ :: srest => matchSegGo fuel (c :: ps) srest)
    else
      match s with
      | [] => false
      | d :: srest =>
        if c = '?' then matchSegGo fuel ps srest
        else if c = d then matchSegGo fuel ps srest else false

/-- Match one glob segment against one path segment (the fuel, one step
per consumed character, is always sufficient). -/
def matchSeg (p s : List Char) : Bool := matchSegGo (p.length + s.length) p s

/-- Match a glob, split into segments, against a path, split into
segments: a segment that is exactly `**` matches any (possibly empty)
run of path segments, as minimatch's globstar does. -/
def globMatchGo : Nat → List (List Char) → List (List Char) → Bool
  | _, [], segs => segs.isEmpty
  | 0, _ :: _, _ => false
  | fuel + 1, p :: pr, segs =>
    if p = ['*', '*'] then
      globMatchGo fuel pr segs ||
        (match segs with
         | [] => false
         | _ :: srest => globMatchGo fuel (p :: pr) srest)
    else
      match segs with
      | [] => false
      | s :: srest => matchSeg p s && globMatchGo fuel pr srest

/-- Match a glob segment list against a path segment list (the fuel,
one step per consumed segment, is always sufficient). -/
def globMatch (ps segs : List (List Char)) : Bool :=
  globMatchGo (ps.length + segs.length) ps segs

/-- Split on slashes, the way minimatch cuts a pattern or path into
segments. -/
def splitSlash : List Char → List (List Char)
  | [] => [[]]
  | c :: rest =>
    if c = '/' then [] :: splitSlash rest
    else
      match splitSlash rest with
      | [] => [[c]]
      | l :: ls => (c :: l) :: ls

/-- The glob the source builds for one exclude pattern: the pattern
itself when it contains a `*`, otherwise `**/<pattern>/**`, split into
segments. -/
def globSegs (p : String) : List (List Char) :=
  if p.data.any fun c => decide (c = '*') then splitSlash p.data
  else splitSlash ((("**/").data) ++ p.data ++ (("/**").data))

/-- The exclusion test of `searchFiles`: some exclude pattern's glob
matches the entry's root-relative path. -/
def shouldExclude (excludePatterns : List String) (relSegs : List String) : Bool :=
  excludePatterns.any fun p => globMatch (globSegs p) (relSegs.map String.data)

/-- The case-insensitive name test of `searchFiles`
(`entry.name.toLowerCase().includes(pattern.toLowerCase())`), with
ASCII lowering. -/
def lowerChars (s : List Char) : List Char :=
  s.map fun c => if 'A' ≤ c ∧ c ≤ 'Z' then Char.ofNat (c.toNat + 32) else c

/-- Does the entry name contain the search pattern, case-insensitively? -/
def nameHit (pattern name : String) : Bool :=
  containsSub (lowerChars pattern.data) (lowerChars name.data)

/-- The recursive worker of `searchFiles`.  For each entry in order:
skip it when the sandbox check fails (`valid` is the abstraction of the
per-entry `validatePath`, whose failure hits the `catch` and
`continue`s) or when an exclude pattern matches its relative path;
otherwise report it if its name matches, and recurse into directories.
Results are the root-relative segment paths of the reported entries;
`fuel` bounds the recursion depth. -/
def searchGo (valid : List String → Bool) (pattern : String)
    (excludePatterns : List String) :
    Nat → List String → List FsEntry → List (List String)
  | 0, _, _ => []
  | _ + 1, _, [] => []
  | fuel + 1, pre, e :: rest =>
    let rel := pre ++ [entryName e]
    let here :=
      if valid rel then
        if shouldExclude excludePatterns rel then []
        else
          (if nameHit pattern (entryName e) then [rel] else []) ++
            (match e with
             | .dir _ cs => searchGo valid pattern excludePatterns fuel rel cs
             | .file _ => [])
      else []
    here ++ searchGo valid pattern excludePatterns fuel pre rest

/-- `searchFiles`, starting from the root's entry list. -/
def searchFilesM (valid : List String → Bool) (pattern : String)
    (excludePatterns : List String) (fuel : Nat) (entries : List FsEntry) :
    List (List String) :=
  searchGo valid pattern excludePatterns fuel [] entries

/-- A bare exclude pattern: a single path segment free of every
minimatch metacharacter (star, question mark, character-class and
brace brackets, extglob parentheses, negation, at, plus, pipe, comma,
backslash) and of the separator — a pattern minimatch treats as a plain
literal segment, such as `node_modules`. -/
def barePat (p : String) : Bool :=
  p.data.all fun c =>
    decide (c ≠ '*' ∧ c ≠ '?' ∧ c ≠ '/' ∧ c ≠ '[' ∧ c ≠ ']'
      ∧ c.toNat ≠ 0x7b ∧ c.toNat ≠ 0x7d ∧ c ≠ '(' ∧ c ≠ ')'
      ∧ c ≠ '!' ∧ c ≠ '@' ∧ c ≠ '+' ∧ c ≠ '|' ∧ c ≠ ',' ∧ c ≠ '\\')

/-! ### Claim-side predicates and concrete instances -/

/-- The claim's description of a fuzzy window match at line `i`: every
`oldText` line equals the corresponding content line after trimming
both sides. -/
def windowSpec (contentLines oldLines : List Str) (i : Nat) : Prop :=
  ∀ j < oldLines.length,
    trimBoth (oldLines.getD j []) = trimBoth (contentLines.getD (i + j) [])

/-- The allow list of the concrete scenarios: the single root
`/allowed`. -/
def exAllow : List FsPath := [[("allowed")]]

/-- Scenario: `/allowed/link` is a symlink to `/outside/secret`. -/
def fsLink : Fsys :=
  [([("allowed")], .dir), ([("outside")], .dir),
   ([("outside"), ("secret")], .file),
   ([("allowed"), ("link")], .symlink [("outside"), ("secret")])]

/-- Scenario: `/allowed-foo` is a sibling of the allow root `/allowed`
whose rendered path extends it as a string. -/
def fsSibling : Fsys :=
  [([("allowed")], .dir), ([("allowed-foo")], .dir),
   ([("allowed-foo"), ("x")], .file)]

/-- Scenario: `/allowed/sub` is a symlink to the directory `/outside`;
the request `/allowed/sub/new` does not exist but its parent does and
canonicalizes outside the allow list. -/
def fsSub : Fsys :=
  [([("allowed")], .dir), ([("outside")], .dir),
   ([("allowed"), ("sub")], .symlink [("outside")])]

/-- Scenario: `/elsewhere` is a symlink into the allowed tree, so the
nonexistent `/elsewhere/new` has an existing parent whose canonical form
is allowed, while the request itself fails the lexical allow check. -/
def fsElse : Fsys :=
  [([("allowed")], .dir), ([("allowed"), ("dir")], .dir),
   ([("elsewhere")], .symlink [("allowed"), ("dir")])]

/-- Scenario: just the allow root, for creating `/allowed/new`. -/
def fsRootOnly : Fsys := [([("allowed")], .dir)]

/-- Concrete tree for the search witness: `a/node_modules/x.txt` and
`a/x.txt` under the root. -/
def exTree : List FsEntry :=
  [.dir ("a") [.dir ("node_modules") [.file ("x.txt")], .file ("x.txt")]]

/-- The diff body of the backtick-fence counterexample: the diff of the
one-line contents `a` and `b`, which contains no backtick at all. -/
def cexDiffBody : Str := createUnifiedDiff (("a").data) (("b").data) (("f").data)

/-! ## Theorems -/

/-- The empty needle is contained in every haystack. -/
theorem containsSub_nil (h : Str) : containsSub [] h = true := by
  cases h <;> simp [containsSub, isPref]

/-- Replacing the first occurrence of the empty pattern inserts the
dollar-substituted replacement at the very beginning. -/
theorem replaceFirst_nil (new h : Str) :
    replaceFirst [] new h = getSubst [] h 0 new ++ h := by
  cases h <;> simp [replaceFirst, replFirstGo, isPref]

/-- A replacement without a dollar sign is substituted into itself. -/
theorem getSubst_no_dollar (matched full : Str) (pos : Nat) :
    ∀ repl : Str, containsSub ['$'] repl = false →
    getSubst matched full pos repl = repl := by
  intro repl
  induction repl with
  | nil => intro _; rfl
  | cons c rest ih =>
    intro h
    simp [containsSub, isPref] at h
    obtain ⟨hne, hrest⟩ := h
    rw [getSubst.eq_def]
    simp only [if_neg (fun hc => hne (Eq.symm hc))]
    rw [ih hrest]

/-- C10 counterexample: with an empty `oldText` and `newText` of two
dollar signs, the replacement string undergoes JavaScript dollar
substitution: a single dollar is prepended, not `newText` itself. -/
theorem claim10_cex_dollar_escape :
    applyEdit (("abc").data) ⟨[], (("$$").data)⟩ = .ok ('$' :: ("abc").data)
    ∧ ('$' :: ("abc").data : Str) ≠ (("$$").data) ++ ("abc").data :=
  ⟨rfl, by decide⟩

/-- C10 (amended): an edit whose `oldText` is empty can never fail: the
exact substring branch always fires (every string contains the empty
string) and the replacement prepends the dollar-substituted normalized
`newText` to the current content, leaving the rest intact; a `newText`
without a dollar sign is prepended verbatim. -/
theorem claim10_empty_old_inserts_subst (content newText : Str) :
    applyEdit content ⟨[], newText⟩
        = .ok (getSubst [] content 0 (normalizeLineEndings newText) ++ content)
    ∧ (containsSub ['$'] (normalizeLineEndings newText) = false →
        applyEdit content ⟨[], newText⟩
          = .ok (normalizeLineEndings newText ++ content)) := by
  constructor
  · simp [applyEdit, normalizeLineEndings, containsSub_nil, replaceFirst_nil]
  · intro h
    simp [applyEdit, normalizeLineEndings, containsSub_nil, replaceFirst_nil,
      getSubst_no_dollar [] content 0 _ h]

/-- C10 witness: a dollar-free `newText` is inserted verbatim at the
very beginning. -/
theorem claim10_witness :
    containsSub ['$'] (normalizeLineEndings (("xy").data)) = false
    ∧ applyEdit (("abc").data) ⟨[], (("xy").data)⟩
        = .ok (normalizeLineEndings (("xy").data) ++ ("abc").data) :=
  ⟨by decide, (claim10_empty_old_inserts_subst (("abc").data) (("xy").data)).2
    (by decide)⟩

/-- Folding the edits of a concatenation: once the first block
succeeds, the fold continues from its result. -/
theorem applyEditsFold_append_ok (l1 l2 : List Edit) (c c2 : Str)
    (h : applyEditsFold c l1 = .ok c2) :
    applyEditsFold c (l1 ++ l2) = applyEditsFold c2 l2 := by
  induction l1 generalizing c with
  | nil => simp [applyEditsFold] at h; simp [h]
  | cons e rest ih =>
    simp [applyEditsFold] at h ⊢
    cases he : applyEdit c e with
    | ok c3 => rw [he] at h; exact ih c3 h
    | error err => rw [he] at h; simp at h

/-- C4: an unmatched edit aborts the whole request: if the edits before
`e` succeed and `e`'s (normalized) `oldText` neither occurs as a
substring of the accumulated content nor matches any trimmed line
window, `applyFileEdits` fails with the edit-not-found error and the
file on disk keeps its original content — no write happens. -/
theorem claim4_unmatched_edit_is_atomic (fp fileContent : Str)
    (pre post : List Edit) (e : Edit) (dryRun : Bool) (c : Str)
    (hpre : applyEditsFold (normalizeLineEndings fileContent) pre = .ok c)
    (hex : containsSub (normalizeLineEndings e.oldText) c = false)
    (hfz : findFuzzy (splitNl c) (splitNl (normalizeLineEndings e.oldText)) = none) :
    applyFileEdits fp fileContent (pre ++ e :: post) dryRun
        = .error (.editNotFound e.oldText)
    ∧ fileAfterEdits fp fileContent (pre ++ e :: post) dryRun = fileContent := by
  have hfold : applyEditsFold (normalizeLineEndings fileContent) (pre ++ e :: post)
      = .error (.editNotFound e.oldText) := by
    rw [applyEditsFold_append_ok pre (e :: post) _ c hpre]
    simp [applyEditsFold, applyEdit, hex, hfz]
  refine ⟨?_, ?_⟩
  · simp [applyFileEdits, hfold]
  · simp [fileAfterEdits, applyFileEdits, hfold]

/-- C4 witness: a concrete one-edit request whose `oldText` is absent
fails and leaves the file content as it was. -/
theorem claim4_witness :
    applyFileEdits [] (("hello").data) [⟨(("xyz").data), (("q").data)⟩] false
        = .error (.editNotFound (("xyz").data))
    ∧ fileAfterEdits [] (("hello").data) [⟨(("xyz").data), (("q").data)⟩] false
        = ("hello").data :=
  claim4_unmatched_edit_is_atomic [] (("hello").data) [] []
    ⟨(("xyz").data), (("q").data)⟩ false (normalizeLineEndings (("hello").data))
    rfl (by decide) (by decide)

/-- C1: the symlink `/allowed/link` sits under the allow root but
resolves to `/outside/secret`, outside every root — yet `validatePath`
returns the path instead of failing: the symlink re-check's throw is
caught by the function's own catch block, whose parent-directory check
then succeeds. -/
theorem claim1_symlink_escape_returns_path :
    realpathModel fsLink 10 [("allowed"), ("link")] = some [("outside"), ("secret")]
    ∧ underAllowed exAllow [("outside"), ("secret")] = false
    ∧ validatePath fsLink 10 exAllow [("allowed"), ("link")]
        = .ok [("allowed"), ("link")] :=
  ⟨rfl, rfl, rfl⟩

/-- C2: the containment check is a bare string-prefix test, not a
segment-aware one: the sibling file `/allowed-foo/x` is not
segment-contained in the allow entry `/allowed`, yet `validatePath`
accepts it because the rendered string starts with `/allowed`. -/
theorem claim2_sibling_string_prefix_accepted :
    segContained exAllow [("allowed-foo"), ("x")] = false
    ∧ underAllowed exAllow [("allowed-foo"), ("x")] = true
    ∧ validatePath fsSibling 10 exAllow [("allowed-foo"), ("x")]
        = .ok [("allowed-foo"), ("x")] :=
  ⟨by decide, rfl, rfl⟩

/-- C3: for the nonexistent `/allowed/sub/new` whose parent exists but
canonicalizes to the disallowed `/outside`, `validatePath` reports the
parent-missing error, not access-denied: the inner catch-all swallows
the access-denied throw meant for this case. -/
theorem claim3_parent_escape_reported_as_missing :
    realpathModel fsSub 10 [("allowed"), ("sub")] = some [("outside")]
    ∧ underAllowed exAllow [("outside")] = false
    ∧ realpathModel fsSub 10 [("allowed"), ("sub"), ("new")] = none
    ∧ validatePath fsSub 10 exAllow [("allowed"), ("sub"), ("new")]
        = .error .parentMissing :=
  ⟨rfl, rfl, rfl, rfl⟩

/-- C7 counterexample: the nonexistent `/elsewhere/new` has an existing
parent that canonicalizes inside the allow root (through the symlink
`/elsewhere`), yet `validatePath` fails with access-denied at the first
lexical check — the claim's hypotheses do not suffice for success. -/
theorem claim7_cex_parent_allowed_but_denied :
    realpathModel fsElse 10 [("elsewhere"), ("new")] = none
    ∧ realpathModel fsElse 10 ([("elsewhere"), ("new")] : FsPath).dropLast
        = some [("allowed"), ("dir")]
    ∧ underAllowed exAllow [("allowed"), ("dir")] = true
    ∧ validatePath fsElse 10 exAllow [("elsewhere"), ("new")]
        = .error .accessDenied :=
  ⟨rfl, rfl, rfl, rfl⟩

/-- C7 (amended): for a nonexistent request that additionally passes the
lexical allow check, whose parent canonicalizes to an allowed path,
`validatePath` succeeds and returns the request itself — not a
canonicalized form. -/
theorem claim7_new_path_returned_verbatim (fs : Fsys) (fuel : Nat)
    (allowed : List FsPath) (p q : FsPath)
    (hne : realpathModel fs fuel p = none)
    (hpar : realpathModel fs fuel p.dropLast = some q)
    (hq : underAllowed allowed q = true)
    (hp : underAllowed allowed p = true) :
    validatePath fs fuel allowed p = .ok p := by
  simp [validatePath, parentCheck, realpathModel] at *
  simp [hne, hpar, hq, hp]

/-- C7 witness: creating `/allowed/new` under the existing allow root
succeeds and returns the path verbatim. -/
theorem claim7_witness :
    validatePath fsRootOnly 10 exAllow [("allowed"), ("new")]
        = .ok [("allowed"), ("new")] :=
  claim7_new_path_returned_verbatim fsRootOnly 10 exAllow
    [("allowed"), ("new")] [("allowed")] rfl rfl rfl rfl

/-- `splitNl` never returns the empty list. -/
theorem splitNl_ne_nil (s : Str) : splitNl s ≠ [] := by
  induction s with
  | nil => simp [splitNl]
  | cons c rest ih =>
    by_cases hc : c = '\n'
    · subst hc; simp [splitNl]
    · cases hrec : splitNl rest with
      | nil => exact absurd hrec ih
      | cons l ls =>
        simp [splitNl, hc, hrec]

/-- The source's boolean window test agrees with the claim's
description of a trimmed line-window match. -/
theorem isMatchAt_iff_windowSpec (cl ol : List Str) (i : Nat) :
    isMatchAt cl ol i = true ↔ windowSpec cl ol i := by
  simp [isMatchAt, windowSpec, List.all_eq_true, List.mem_range]

/-- `find?` over `range'` returns the least index satisfying the
predicate. -/
theorem find_range_aux {p : Nat → Bool} :
    ∀ (len s i : Nat), s ≤ i → i < s + len → p i = true →
      (∀ k, s ≤ k → k < i → p k = false) →
      (List.range' s len).find? p = some i := by
  intro len
  induction len with
  | zero => intro s i h1 h2 _ _; omega
  | succ n ih =>
    intro s i hsi hlt hp hleast
    rw [List.range'_succ]
    by_cases hps : p s = true
    · have hieq : i = s := by
        by_contra hne
        have hsl : s < i := lt_of_le_of_ne hsi (Ne.symm hne)
        have hfalse := hleast s le_rfl hsl
        rw [hps] at hfalse
        cases hfalse
      subst hieq
      rw [List.find?_cons_of_pos _ hps]
    · have hps2 : p s = false := by
        cases h : p s
        · rfl
        · exact absurd h hps
      have hsl : s < i := by
        rcases Nat.lt_or_ge s i with h | h
        · exact h
        · have hieq : i = s := le_antisymm (le_of_not_lt (by omega)) hsi
          rw [hieq] at hp
          rw [hp] at hps2
          cases hps2
      rw [List.find?_cons_of_neg _ (by simp [hps2])]
      exact ih (s + 1) i hsl (by omega) hp fun k hk1 hk2 => hleast k (by omega) hk2

/-- `find?` over `range` returns the least index satisfying the
predicate. -/
theorem find_range_eq_some {p : Nat → Bool} (len i : Nat) (hi : i < len)
    (hp : p i = true) (hleast : ∀ k, k < i → p k = false) :
    (List.range len).find? p = some i := by
  rw [List.range_eq_range']
  exact find_range_aux len 0 i (Nat.zero_le i) (by omega) hp
    fun k _ hk2 => hleast k hk2

/-- C5: when the (normalized) `oldText` is not a substring, the fuzzy
pass replaces the first line window (least starting index) whose lines
all agree with the `oldText` lines after trimming; the replacement block
has one line per (normalized) `newText` line, and its first line is the
matched window's first-line leading whitespace followed by the first new
line stripped of its own leading whitespace. -/
theorem claim5_fuzzy_first_window (content : Str) (e : Edit) (i : Nat)
    (hno : containsSub (normalizeLineEndings e.oldText) content = false)
    (hw : windowSpec (splitNl content) (splitNl (normalizeLineEndings e.oldText)) i)
    (hleast : ∀ k, k < i →
      ¬ windowSpec (splitNl content) (splitNl (normalizeLineEndings e.oldText)) k)
    (hbound : i + (splitNl (normalizeLineEndings e.oldText)).length
      ≤ (splitNl content).length) :
    ∃ newLs : List Str,
      applyEdit content e
          = .ok (joinNl ((splitNl content).take i ++ newLs
              ++ (splitNl content).drop
                  (i + (splitNl (normalizeLineEndings e.oldText)).length)))
      ∧ newLs.length = (splitNl (normalizeLineEndings e.newText)).length
      ∧ newLs.head? = some (leadWS ((splitNl content).getD i [])
          ++ dropWS ((splitNl (normalizeLineEndings e.newText)).getD 0 [])) := by
  have hm : 0 < (splitNl (normalizeLineEndings e.oldText)).length :=
    List.length_pos.mpr (splitNl_ne_nil _)
  have hfind : findFuzzy (splitNl content) (splitNl (normalizeLineEndings e.oldText))
      = some i := by
    unfold findFuzzy
    rw [if_pos (by omega)]
    apply find_range_eq_some _ i (by omega)
    · exact (isMatchAt_iff_windowSpec _ _ i).mpr hw
    · intro k hk
      cases h : isMatchAt (splitNl content) (splitNl (normalizeLineEndings e.oldText)) k
      · rfl
      · exact absurd ((isMatchAt_iff_windowSpec _ _ k).mp h) (hleast k hk)
  refine ⟨computeNewLines (splitNl (normalizeLineEndings e.oldText))
    (splitNl (normalizeLineEndings e.newText))
    (leadWS ((splitNl content).getD i [])), ?_, ?_, ?_⟩
  · simp [applyEdit, hno, hfind]
  · simp [computeNewLines]
  · obtain ⟨h0, t0, hsplit⟩ :
        ∃ h0 t0, splitNl (normalizeLineEndings e.newText) = h0 :: t0 := by
      cases hs : splitNl (normalizeLineEndings e.newText) with
      | nil => exact absurd hs (splitNl_ne_nil _)
      | cons a b => exact ⟨a, b, rfl⟩
    rw [hsplit]
    simp [computeNewLines]

/-- C5 witness: the indented three-line window is located by trimmed
comparison (the un-indented `oldText` is not a substring) and replaced
from the top, the first replacement line picking up the window's
two-space indentation. -/
theorem claim5_witness :
    ∃ newLs : List Str,
      applyEdit (("  if (x) (\n    y();\n  )\n").data)
          ⟨(("if (x) (\ny();\n)").data), (("if (x) (\nz();\n)").data)⟩
          = .ok (joinNl ((splitNl (("  if (x) (\n    y();\n  )\n").data)).take 0
              ++ newLs
              ++ (splitNl (("  if (x) (\n    y();\n  )\n").data)).drop
                  (0 + (splitNl (normalizeLineEndings (("if (x) (\ny();\n)").data))).length)))
      ∧ newLs.length
          = (splitNl (normalizeLineEndings (("if (x) (\nz();\n)").data))).length
      ∧ newLs.head? = some (leadWS ((splitNl (("  if (x) (\n    y();\n  )\n").data)).getD 0 [])
          ++ dropWS ((splitNl (normalizeLineEndings (("if (x) (\nz();\n)").data))).getD 0 [])) :=
  claim5_fuzzy_first_window (("  if (x) (\n    y();\n  )\n").data)
    ⟨(("if (x) (\ny();\n)").data), (("if (x) (\nz();\n)").data)⟩ 0
    (by decide)
    ((isMatchAt_iff_windowSpec _ _ 0).mp (by decide))
    (fun k hk => absurd hk (Nat.not_lt_zero k))
    (by decide)

/-- A CRLF-free string is untouched by line-ending normalization. -/
theorem normalizeLineEndings_eq_self (s : Str)
    (h : containsSub (("\r\n").data) s = false) : normalizeLineEndings s = s := by
  induction s using normalizeLineEndings.induct with
  | case1 => rfl
  | case2 c => rfl
  | case3 c d rest hcd ih =>
    obtain ⟨hc, hd⟩ := hcd
    subst hc; subst hd
    simp [containsSub, isPref] at h
  | case4 c d rest hcd ih =>
    rw [normalizeLineEndings, if_neg hcd]
    congr 1
    apply ih
    simp [containsSub] at h ⊢
    exact h.2

/-- The longest common subsequence of a list with itself is the list. -/
theorem lcsGo_self : ∀ (fuel : Nat) (a : List Str), a.length ≤ fuel →
    lcsGo fuel a a = a := by
  intro fuel
  induction fuel with
  | zero =>
    intro a ha
    cases a with
    | nil => rfl
    | cons x xs => simp at ha
  | succ f ih =>
    intro a ha
    cases a with
    | nil => rfl
    | cons x xs =>
      simp [lcsGo]
      exact ih xs (by simpa using Nat.le_of_succ_le_succ ha)

/-- The diff of equal line lists consists of keeps only. -/
theorem diffOpsGo_self (a : List Str) : diffOpsGo a a a = a.map .keep := by
  induction a with
  | nil => rfl
  | cons x xs ih =>
    simp [diffOpsGo, List.takeWhile_cons, List.dropWhile_cons]
    exact ih

/-- The op list of the diff of a content with itself is all keeps. -/
theorem diffOps_self (a : List Str) : diffOps a a = a.map .keep := by
  rw [diffOps, lcsL]
  rw [lcsGo_self (a.length + a.length) a (by omega)]
  exact diffOpsGo_self a

/-- No index of an all-keep op list is marked for a hunk. -/
theorem markedIdx_keep (a : List Str) (i : Nat) :
    markedIdx (a.map .keep) i = false := by
  rw [markedIdx]
  rw [List.any_eq_false]
  intro j _
  simp [opChanged]

/-- Grouping an all-false flag list yields no runs. -/
theorem runsAux_false : ∀ (flags : List Bool) (i : Nat),
    (∀ b ∈ flags, b = false) → runsAux flags i none = [] := by
  intro flags
  induction flags with
  | nil => intro i _; rfl
  | cons b rest ih =>
    intro i hall
    have hb : b = false := hall b (by simp)
    subst hb
    simp [runsAux]
    exact ih (i + 1) fun b hb => hall b (by simp [hb])

/-- The unified diff of equal contents has no hunks. -/
theorem hunkRanges_self (a : List Str) : hunkRanges (diffOps a a) = [] := by
  rw [hunkRanges, diffOps_self]
  apply runsAux_false
  intro b hb
  rw [List.mem_map] at hb
  obtain ⟨j, _, hj⟩ := hb
  rw [← hj]
  exact markedIdx_keep a j

/-- C6 (amended): the empty edit list always succeeds; the rendered
diff has no hunks (its hunk-range list is empty); a dry run leaves the
file alone, a real run writes the LF-normalized content back — so the
on-disk content is unchanged whenever the file contains no CRLF. -/
theorem claim6_empty_edits (fp c : Str) (dr : Bool) :
    applyFileEdits fp c [] dr
        = .ok (formatDiff (createUnifiedDiff (normalizeLineEndings c)
            (normalizeLineEndings c) fp),
          if dr then c else normalizeLineEndings c)
    ∧ hunkRanges (diffOps (splitNl (normalizeLineEndings (normalizeLineEndings c)))
        (splitNl (normalizeLineEndings (normalizeLineEndings c)))) = []
    ∧ (containsSub (("\r\n").data) c = false → fileAfterEdits fp c [] dr = c) := by
  refine ⟨?_, ?_, ?_⟩
  · simp [applyFileEdits, applyEditsFold]
  · exact hunkRanges_self _
  · intro h
    have hn := normalizeLineEndings_eq_self c h
    simp [fileAfterEdits, applyFileEdits, applyEditsFold, hn]

/-- C6 witness: a concrete CRLF-free file with the empty edit list is
unchanged on disk and its diff has no hunks. -/
theorem claim6_witness :
    containsSub (("\r\n").data) (("ab\ncd").data) = false
    ∧ fileAfterEdits [] (("ab\ncd").data) [] false = ("ab\ncd").data :=
  ⟨by decide, (claim6_empty_edits [] (("ab\ncd").data) false).2.2 (by decide)⟩

/-- C6 counterexample: a CRLF file is rewritten with LF endings by an
empty edit list on a non-dry run — the on-disk content changes, so the
claim's unconditional "unchanged" fails. -/
theorem claim6_cex_crlf_rewritten :
    fileAfterEdits [] (("a\r\nb").data) [] false = ("a\nb").data
    ∧ (("a\nb").data : Str) ≠ (("a\r\nb").data) :=
  ⟨rfl, by decide⟩

/-- The boolean prefix test agrees with the prefix relation. -/
theorem isPref_iff (a b : Str) : isPref a b = true ↔ a <+: b := by
  induction a generalizing b with
  | nil => simp [isPref]
  | cons x xs ih =>
    cases b with
    | nil => simp [isPref]
    | cons y ys =>
      by_cases hxy : x = y
      · subst hxy
        simp [isPref, List.cons_prefix_cons, ih]
      · simp [isPref, hxy, List.cons_prefix_cons]

/-- The boolean containment test agrees with the infix relation. -/
theorem containsSub_iff (n h : Str) : containsSub n h = true ↔ n <:+: h := by
  induction h with
  | nil =>
    simp [containsSub, isPref_iff]
  | cons c rest ih =>
    simp [containsSub, isPref_iff, ih, List.infix_cons_iff]

/-- Every string contains the empty backtick run. -/
theorem hasRun_zero (d : Str) : hasRun d 0 = true := by
  simp [hasRun, containsSub_nil]

/-- Shorter backtick runs are contained whenever longer ones are. -/
theorem hasRun_mono (d : Str) (k n : Nat) (hkn : k ≤ n)
    (h : hasRun d n = true) : hasRun d k = true := by
  rw [hasRun, containsSub_iff] at h ⊢
  have hpre : List.replicate k tick <+: List.replicate n tick :=
    ⟨List.replicate (n - k) tick, by rw [← List.replicate_add]; congr 1; omega⟩
  exact List.IsInfix.trans ⟨[], hpre.choose, by simpa using hpre.choose_spec⟩ h

/-- A contained backtick run is no longer than the string. -/
theorem hasRun_le (d : Str) (n : Nat) (h : hasRun d n = true) : n ≤ d.length := by
  rw [hasRun, containsSub_iff] at h
  simpa using h.length_le

/-- Any contained run length is bounded by the longest one. -/
theorem le_maxRun (d : Str) (n : Nat) (h : hasRun d n = true) : n ≤ maxRun d :=
  Nat.le_findGreatest (hasRun_le d n h) h

/-- Run lengths up to the longest one are contained. -/
theorem hasRun_of_le_maxRun (d : Str) (n : Nat) (h : n ≤ maxRun d) :
    hasRun d n = true := by
  cases n with
  | zero => exact hasRun_zero d
  | succ m =>
    have hne : maxRun d ≠ 0 := by omega
    have hex : ∃ k, 0 < k ∧ k ≤ d.length ∧ hasRun d k = true := by
      by_contra hall
      push_neg at hall
      exact hne (Nat.findGreatest_eq_zero_iff.mpr
        fun {j} hj0 hjl => hall j hj0 hjl)
    obtain ⟨k, _, hkl, hpk⟩ := hex
    have hmax : hasRun d (maxRun d) = true :=
      Nat.findGreatest_spec (P := fun n => hasRun d n = true) hkl hpk
    exact hasRun_mono d (m + 1) (maxRun d) h hmax

/-- The bump loop computes the larger of 3 and one more than the
longest backtick run, given enough fuel. -/
theorem bumpGo_eq (d : Str) : ∀ (fuel n : Nat), maxRun d < n + fuel →
    bumpGo d fuel n = max n (maxRun d + 1) := by
  intro fuel
  induction fuel with
  | zero =>
    intro n h
    rw [bumpGo]
    omega
  | succ f ih =>
    intro n h
    rw [bumpGo]
    by_cases hr : hasRun d n = true
    · rw [if_pos hr]
      have hn := le_maxRun d n hr
      rw [ih (n + 1) (by omega)]
      omega
    · rw [if_neg hr]
      have hgt : ¬ n ≤ maxRun d := fun hle => hr (hasRun_of_le_maxRun d n hle)
      omega

/-- The fence width of `applyFileEdits` is the larger of 3 and one more
than the longest backtick run of the diff body. -/
theorem numBackticksFor_eq (d : Str) : numBackticksFor d = max 3 (maxRun d + 1) := by
  rw [numBackticksFor]
  apply bumpGo_eq
  have hb : maxRun d ≤ d.length := Nat.findGreatest_le d.length
  omega

/-- C8 (amended): the fenced block uses a backtick fence of width
`max 3 (L + 1)` where `L` is the longest backtick run of the diff body —
one longer than the longest run, but never fewer than three. -/
theorem claim8_fence_width (d : Str) :
    formatDiff d
        = List.replicate (max 3 (maxRun d + 1)) tick ++ (("diff\n").data) ++ d
          ++ List.replicate (max 3 (maxRun d + 1)) tick ++ (("\n\n").data)
    ∧ numBackticksFor d = max 3 (maxRun d + 1) := by
  have h := numBackticksFor_eq d
  exact ⟨by rw [formatDiff, h], h⟩

/-- A string without a single backtick has longest run zero. -/
theorem maxRun_eq_zero (d : Str) (h : hasRun d 1 = false) : maxRun d = 0 := by
  by_contra hne
  have hpos : 1 ≤ maxRun d := by omega
  rw [hasRun_of_le_maxRun d 1 hpos] at h
  cases h

set_option maxRecDepth 8192 in
/-- C8 counterexample: a concretely produced diff body contains no
backtick at all (longest run 0), yet the fence has width 3, not 0 + 1 —
the claim's "exactly one greater" fails for backtick-free diffs. -/
theorem claim8_cex_backtick_free_diff :
    applyFileEdits (("f").data) (("a").data) [⟨(("a").data), (("b").data)⟩] true
        = .ok (formatDiff cexDiffBody, ("a").data)
    ∧ hasRun cexDiffBody 1 = false
    ∧ maxRun cexDiffBody = 0
    ∧ numBackticksFor cexDiffBody = 3
    ∧ numBackticksFor cexDiffBody ≠ maxRun cexDiffBody + 1 := by
  have h1 : hasRun cexDiffBody 1 = false := by decide
  have h0 : maxRun cexDiffBody = 0 := maxRun_eq_zero _ h1
  refine ⟨rfl, h1, h0, by decide, ?_⟩
  rw [h0]
  decide

/-- A wildcard-free glob segment matches itself. -/
theorem matchSegGo_lit_refl : ∀ (p : List Char) (fuel : Nat),
    (∀ c ∈ p, c ≠ '*' ∧ c ≠ '?') → p.length + p.length ≤ fuel →
    matchSegGo fuel p p = true := by
  intro p
  induction p with
  | nil => intro fuel _ _; cases fuel <;> rfl
  | cons c ps ih =>
    intro fuel hlit hfuel
    obtain ⟨hs, hq⟩ := hlit c (by simp)
    cases fuel with
    | zero => simp at hfuel
    | succ f =>
      rw [matchSegGo, if_neg hs]
      simp only [if_neg hq, if_pos rfl]
      exact ih f (fun c hc => hlit c (by simp [hc])) (by simp at hfuel; omega)

/-- The sole globstar segment matches any path suffix, given fuel. -/
theorem globMatchGo_dstar : ∀ (segs : List (List Char)) (fuel : Nat),
    segs.length < fuel → globMatchGo fuel [['*', '*']] segs = true := by
  intro segs
  induction segs with
  | nil =>
    intro fuel hf
    cases fuel with
    | zero => omega
    | succ f => rw [globMatchGo, if_pos rfl]; cases f <;> rfl
  | cons s rest ih =>
    intro fuel hf
    cases fuel with
    | zero => omega
    | succ f =>
      rw [globMatchGo, if_pos rfl]
      have := ih f (by simp at hf ⊢; omega)
      simp [this]

/-- The glob `**/x/**` matches any segment list containing the
wildcard-free segment `x`. -/
theorem globMatchGo_seg_mem : ∀ (l : List (List Char)) (fuel : Nat) (x : List Char),
    x ∈ l → (∀ c ∈ x, c ≠ '*' ∧ c ≠ '?') → l.length + 3 ≤ fuel →
    globMatchGo fuel [['*', '*'], x, ['*', '*']] l = true := by
  intro l
  induction l with
  | nil => intro fuel x hx; simp at hx
  | cons s rest ih =>
    intro fuel x hx hlit hfuel
    have hxne : x ≠ ['*', '*'] := by
      intro hxe
      have := hlit '*' (by rw [hxe]; simp)
      simp at this
    cases fuel with
    | zero => simp at hfuel
    | succ f =>
      rw [globMatchGo, if_pos rfl]
      rcases List.mem_cons.mp hx with hxs | hxr
      · subst hxs
        have hA : globMatchGo f [x, ['*', '*']] (x :: rest) = true := by
          cases f with
          | zero => simp at hfuel
          | succ f2 =>
            rw [globMatchGo, if_neg hxne]
            have hm : matchSeg x x = true :=
              matchSegGo_lit_refl x (x.length + x.length) hlit le_rfl
            have hrest : globMatchGo f2 [['*', '*']] rest = true :=
              globMatchGo_dstar rest f2 (by simp at hfuel; omega)
            simp [hm, hrest]
        simp [hA]
      · have hB : globMatchGo f [['*', '*'], x, ['*', '*']] rest = true :=
          ih f x hxr hlit (by simp at hfuel ⊢; omega)
        simp [hB]

/-- Splitting on slashes peels off a slash-free chunk before a slash. -/
theorem splitSlash_append (p q : List Char) (hp : '/' ∉ p) :
    splitSlash (p ++ '/' :: q) = p :: splitSlash q := by
  induction p with
  | nil => simp [splitSlash]
  | cons c p2 ih =>
    have hc : c ≠ '/' := by intro hce; exact hp (by simp [hce])
    have ih2 := ih fun hmem => hp (by simp [hmem])
    simp only [List.cons_append, splitSlash, if_neg hc, List.append_eq, ih2]

/-- For a bare exclude pattern, the source's constructed glob splits
into exactly globstar, the pattern, globstar. -/
theorem globSegs_bare (p : String) (hb : barePat p = true) :
    globSegs p = [['*', '*'], p.data, ['*', '*']] := by
  have hall := List.all_eq_true.mp hb
  have hnostar : (p.data.any fun c => decide (c = '*')) = false := by
    rw [List.any_eq_false]
    intro c hc
    have := hall c hc
    simp at this ⊢
    exact this.1
  have hnoslash : '/' ∉ p.data := by
    intro hmem
    have := hall '/' hmem
    simp at this
  rw [globSegs, if_neg (by simp [hnostar])]
  have hshape : (("**/").data : List Char) ++ p.data ++ (("/**").data)
      = ['*', '*'] ++ '/' :: (p.data ++ '/' :: ['*', '*']) := by
    simp
  rw [hshape, splitSlash_append ['*', '*'] _ (by decide),
    splitSlash_append p.data _ hnoslash]
  rfl

/-- A bare pattern appearing among the relative segments forces the
exclusion test to fire. -/
theorem shouldExclude_of_mem (excludes rel : List String) (pat : String)
    (hmem : pat ∈ excludes) (hb : barePat pat = true) (hrel : pat ∈ rel) :
    shouldExclude excludes rel = true := by
  rw [shouldExclude, List.any_eq_true]
  refine ⟨pat, hmem, ?_⟩
  rw [globSegs_bare pat hb, globMatch]
  apply globMatchGo_seg_mem
  · exact List.mem_map_of_mem _ hrel
  · intro c hc
    have := List.all_eq_true.mp hb c hc
    simp at this
    exact ⟨this.1, this.2.1⟩
  · simp [Nat.add_comm]

/-- Every result of the search worker avoids bare excluded segments: a
reported path passed its own exclusion check, and recursion never
descends into an excluded directory. -/
theorem searchGo_excludes_bare (valid : List String → Bool) (pattern : String)
    (excludes : List String) (pat : String)
    (hmem : pat ∈ excludes) (hb : barePat pat = true) :
    ∀ (fuel : Nat) (pre : List String) (entries : List FsEntry) (res : List String),
      res ∈ searchGo valid pattern excludes fuel pre entries → pat ∉ res := by
  intro fuel
  induction fuel with
  | zero => intro pre entries res hres; simp [searchGo] at hres
  | succ f ih =>
    intro pre entries res hres
    cases entries with
    | nil => simp [searchGo] at hres
    | cons e rest =>
      simp only [searchGo] at hres
      rcases List.mem_append.mp hres with h1 | h2
      · by_cases hv : valid (pre ++ [entryName e]) = true
        · rw [if_pos hv] at h1
          by_cases hexcl : shouldExclude excludes (pre ++ [entryName e]) = true
          · rw [if_pos hexcl] at h1
            simp at h1
          · rw [if_neg hexcl] at h1
            have hnotrel : pat ∉ pre ++ [entryName e] := fun hr =>
              hexcl (shouldExclude_of_mem excludes _ pat hmem hb hr)
            rcases List.mem_append.mp h1 with hemit | hchild
            · by_cases hn : nameHit pattern (entryName e) = true
              · rw [if_pos hn] at hemit
                simp at hemit
                rw [hemit]
                exact hnotrel
              · rw [if_neg hn] at hemit
                simp at hemit
            · cases e with
              | file n => simp at hchild
              | dir n cs => exact ih _ cs res hchild
        · rw [if_neg hv] at h1
          simp at h1
      · exact ih pre rest res h2

/-- C9: for any bare exclude pattern (no wildcard, no separator),
`searchFiles` never returns a path having that pattern as a segment
below the root — the pattern is matched as the glob `**/<pattern>/**`
against each entry's root-relative path, and matching entries are
skipped entirely. -/
theorem claim9_bare_exclude_never_returned (valid : List String → Bool)
    (pattern : String) (excludes : List String) (pat : String)
    (hmem : pat ∈ excludes) (hb : barePat pat = true)
    (fuel : Nat) (entries : List FsEntry) (res : List String)
    (hres : res ∈ searchFilesM valid pattern excludes fuel entries) :
    pat ∉ res :=
  searchGo_excludes_bare valid pattern excludes pat hmem hb fuel [] entries res hres

/-- C9 witness: in a tree with `a/node_modules/x.txt` and `a/x.txt`,
the search for `x` with exclude `node_modules` does return `a/x.txt`,
and the theorem applies to it. -/
theorem claim9_witness :
    ("node_modules") ∈ [("node_modules")]
    ∧ barePat ("node_modules") = true
    ∧ [("a"), ("x.txt")] ∈ searchFilesM (fun _ => true) ("x") [("node_modules")] 10 exTree
    ∧ ("node_modules") ∉ ([("a"), ("x.txt")] : List String) :=
  ⟨by simp, by decide, by decide,
    claim9_bare_exclude_never_returned (fun _ => true) ("x") [("node_modules")]
      ("node_modules") (by simp) (by decide) 10 exTree [("a"), ("x.txt")] (by decide)⟩

end Mcp
